import Mathlib

/-!
Verification of the quivr columnar-table library core.

This file shallowly embeds the repository's concatenation engine
(`quiver/concat.py`), together with the collaborating pieces it drives —
the arrow-like chunked table layer (record batches, struct columns,
schema metadata), the defragmentation engine, the schema compiler's
attribute-key namespace, the attribute metadata codec, and the string
equality index — and proves the specification's claims about them.

Modelling conventions:
- Python/arrow strings and byte strings are modelled as `List Char`
  resp. `List Nat` (byte sequences).
- An arrow array is `Arr`: either a primitive array of values or a
  struct array with named child arrays; a record batch is a struct-shaped
  `Arr` plus the schema metadata it carries.
- Fallible operations return `Except Err _`, with one `Err` constructor
  per distinct exception class of the Python code (quivr's own
  `ValidationError` is distinct from the arrow library's errors).
-/

abbrev Name := List Char

abbrev ByteStr := List Nat

/-- Attribute metadata: an association list from dotted-path keys
(byte strings of the key text, modelled as the key chars) to encoded
byte-string values, mirroring an arrow schema's metadata map. -/
abbrev MetaMap := List (Name × ByteStr)

/-- Primitive arrow value types used by the tables under test. -/
inductive PrimTy
  | int64
  | str
deriving DecidableEq, Repr

/-- A scalar cell value of a primitive column. -/
inductive Val
  | vint (i : Int)
  | vstr (s : List Char)
deriving DecidableEq, Repr

/-- Default cell used by positional `take`-style selection. -/
def vdefault : Val := .vint 0

mutual
/-- An arrow data type: a primitive type or a struct type with named,
ordered fields (nested sub-tables compile to struct columns). -/
inductive DType where
  | prim : PrimTy → DType
  | strct : DFields → DType
deriving DecidableEq, Repr
/-- The ordered named fields of a struct data type. -/
inductive DFields where
  | nil : DFields
  | cons : Name → DType → DFields → DFields
deriving DecidableEq, Repr
end

mutual
/-- Structural equality of arrow data types, as the arrow library's
`Schema.Equals(check_metadata=false)` compares them: field names and
types, never metadata. -/
def dtB : DType → DType → Bool
  | .prim a, .prim b => a == b
  | .strct f, .strct g => dfB f g
  | _, _ => false
/-- Structural equality of struct field lists. -/
def dfB : DFields → DFields → Bool
  | .nil, .nil => true
  | .cons n t f, .cons n' t' f' => n == n' && dtB t t' && dfB f f'
  | _, _ => false
end

/-- Look up a field's type by name in a struct type's field list. -/
def DFields.findT : DFields → Name → Option DType
  | .nil, _ => none
  | .cons n t fs, c => if n = c then some t else fs.findT c

mutual
/-- An arrow array (one chunk of a column): a primitive array of cell
values, or a struct array of a given length with named child arrays. -/
inductive Arr where
  | prim : PrimTy → List Val → Arr
  | strct : Nat → AFields → Arr
deriving DecidableEq, Repr
/-- The ordered named child arrays of a struct array. -/
inductive AFields where
  | anil : AFields
  | acons : Name → Arr → AFields → AFields
deriving DecidableEq, Repr
end

mutual
/-- The data type of an array. -/
def Arr.dtype : Arr → DType
  | .prim t _ => .prim t
  | .strct _ fs => .strct fs.dtypes
/-- The struct field types of a list of child arrays. -/
def AFields.dtypes : AFields → DFields
  | .anil => .nil
  | .acons n a fs => .cons n a.dtype fs.dtypes
end

/-- Number of rows held by one array. -/
def Arr.nrows : Arr → Nat
  | .prim _ vs => vs.length
  | .strct n _ => n

mutual
/-- The empty (zero-row) array of a given data type. -/
def emptyOf : DType → Arr
  | .prim t => .prim t []
  | .strct fs => .strct 0 (emptyFs fs)
/-- The empty child arrays of a struct field list. -/
def emptyFs : DFields → AFields
  | .nil => .anil
  | .cons n t fs => .acons n (emptyOf t) (emptyFs fs)
end

mutual
/-- Concatenate two arrays of the same data type back to back
(the arrow `concat_arrays` / chunk-combining primitive): primitive
values are appended, struct children are concatenated pointwise. -/
def arrConcat : Arr → Arr → Arr
  | .prim t vs, .prim _ ws => .prim t (vs ++ ws)
  | .strct n fs, .strct m gs => .strct (n + m) (afConcat fs gs)
  | a, _ => a
/-- Pointwise concatenation of struct children. -/
def afConcat : AFields → AFields → AFields
  | .anil, _ => .anil
  | .acons n a fs, .acons _ b gs => .acons n (arrConcat a b) (afConcat fs gs)
  | .acons n a fs, .anil => .acons n a fs
end

/-- Look up a child array by name. -/
def AFields.find : AFields → Name → Option Arr
  | .anil, _ => none
  | .acons n a fs, c => if n = c then some a else fs.find c

/-- The cell values of the physical (leaf) column reached by descending
through struct children along `p`; `[]` names the array itself when it
is primitive. -/
def leafVals : List Name → Arr → List Val
  | [], .prim _ vs => vs
  | [], .strct _ _ => []
  | _ :: _, .prim _ _ => []
  | c :: p, .strct _ fs =>
    match fs.find c with
    | some a => leafVals p a
    | none => []

/-- Whether `p` is a path to a primitive (leaf) column of data type `s`. -/
def validLeafB : List Name → DType → Bool
  | [], .prim _ => true
  | [], .strct _ => false
  | _ :: _, .prim _ => false
  | c :: p, .strct fs =>
    match fs.findT c with
    | some t => validLeafB p t
    | none => false

mutual
/-- Row selection (the arrow `take` kernel): pick the rows at the given
positions, in the given order. -/
def arrSelect (ps : List Nat) : Arr → Arr
  | .prim t vs => .prim t (ps.map (fun i => vs.getD i vdefault))
  | .strct _ fs => .strct ps.length (afSelect ps fs)
/-- Pointwise row selection on struct children. -/
def afSelect (ps : List Nat) : AFields → AFields
  | .anil => .anil
  | .acons n a fs => .acons n (arrSelect ps a) (afSelect ps fs)
end

/-- Error kinds, one per distinct Python exception class involved. -/
inductive Err
  | arrowEmptyBatches
  | arrowInvalid
  | validationError
  | indexError
deriving DecidableEq, Repr

/-- An arrow record batch as produced by `Table.to_batches`: one
struct-shaped slab of rows carrying the schema metadata of the table it
came from (batches share the owning table's schema object, metadata
included). -/
structure RB where
  meta : MetaMap
  data : Arr
deriving DecidableEq, Repr

/-- An arrow `pa.Table`: a schema, the schema's metadata map, and the
list of record-batch slabs; every top-level column's chunk sequence is
the per-batch restriction of this list, so each column has one chunk per
batch. -/
structure PATable where
  schema : DType
  meta : MetaMap
  batches : List Arr
deriving DecidableEq, Repr

/-- `pa.Table.to_batches`: one record batch per slab, each carrying the
table's schema metadata. -/
def PATable.toBatches (t : PATable) : List RB :=
  t.batches.map (fun a => ⟨t.meta, a⟩)

/-- `pa.Table.from_batches` with no explicit schema argument: fails on
an empty batch list ("Must pass schema, or at least one RecordBatch");
otherwise adopts the first batch's schema, metadata included, and
requires every other batch's schema to be structurally equal to the
first's — metadata is not compared (`check_metadata=False`), raising
`ArrowInvalid` on mismatch. -/
def paFromBatches : List RB → Except Err PATable
  | [] => .error .arrowEmptyBatches
  | b :: rest =>
    cond (rest.all (fun r => dtB r.data.dtype b.data.dtype))
      (.ok ⟨b.data.dtype, b.meta, (b :: rest).map RB.data⟩)
      (.error .arrowInvalid)

/-- A quivr Table subclass: an identity tag plus the compiled physical
schema its declared fields produce. Distinct classes may share a schema. -/
structure Cls where
  tag : Nat
  schema : DType
deriving DecidableEq, Repr

/-- A quivr table instance: its class and the wrapped arrow table. -/
structure QTable where
  cls : Cls
  table : PATable
deriving DecidableEq, Repr

instance : Inhabited QTable :=
  ⟨⟨⟨0, .prim .int64⟩, ⟨.prim .int64, [], []⟩⟩⟩

/-- Modelled from the spec: quivr's table constructor `cls(table=table)`
(`quivr/tables.py` is not under `src/`). Per §3/§6 a constructor
validates that the supplied arrow table's top-level column set matches
the class's compiled physical schema, raising `ValidationError`
otherwise. -/
def clsFromTable (cls : Cls) (t : PATable) : Except Err QTable :=
  cond (dtB t.schema cls.schema) (.ok ⟨cls, t⟩) (.error .validationError)

/-- Modelled from the spec: the chunk-combining step of
`quivr.defragment.defragment` (`quivr/defragment.py` is not under
`src/`; §4.5): every physical column's chunks are copied and
concatenated into one contiguous chunk, leaving schema and metadata
unchanged. -/
def combineChunks (t : PATable) : PATable :=
  ⟨t.schema, t.meta, [t.batches.foldl arrConcat (emptyOf t.schema)]⟩

/-- Modelled from the spec: `quivr.defragment.defragment` (§4.5):
produce a new Table Instance of the same class whose storage is the
one-chunk-per-column compaction of the input's. -/
def defragment (q : QTable) : QTable :=
  ⟨q.cls, combineChunks q.table⟩

/-- The `batches` accumulator loop of `concatenate`
(src/quiver/concat.py lines 23-25): every input's record batches,
appended in input order. -/
def gatherBatches (values : List QTable) : List RB :=
  values.foldl (fun acc v => acc ++ v.table.toBatches) []

/-- `quiver.concat.concatenate` (src/quiver/concat.py): collect every
input's record batches in order, rebuild one arrow table from them,
construct an instance of the first input's class around it, and
defragment the result unless `defrag` is false. The error order follows
the Python control flow: `pa.Table.from_batches` runs before
`values[0]` is subscripted. -/
def concatenate (values : List QTable) (defrag : Bool := true) :
    Except Err QTable := do
  let table ← paFromBatches (gatherBatches values)
  match values with
  | [] => .error .indexError
  | v0 :: _ => do
      let result ← clsFromTable v0.cls table
      pure (cond defrag (defragment result) result)

/-- Row count of a quivr table (`len(table)` = `table.num_rows`). -/
def QTable.rowCount (q : QTable) : Nat :=
  (q.table.batches.map Arr.nrows).sum

/-- Chunk count of every physical column (each record batch contributes
one chunk to each column, recursively including the leaf columns nested
inside struct columns). -/
def QTable.chunkCount (q : QTable) : Nat :=
  q.table.batches.length

/-- The full value sequence of the physical leaf column reached by path
`p`, concatenated across chunks in order. -/
def QTable.colVals (q : QTable) (p : List Name) : List Val :=
  (q.table.batches.map (leafVals p)).flatten

/-- Well-formedness of a quivr table: the wrapped arrow table's schema
is the class's compiled schema, and every batch conforms to it. -/
def QTable.wfq (q : QTable) : Bool :=
  dtB q.table.schema q.cls.schema &&
  q.table.batches.all (fun b => dtB b.dtype q.table.schema)

/-- `table.take(positions)` lifted to a quivr table: flatten the chunks
and select the requested rows, producing a single-chunk table with the
same class, schema and metadata. -/
def QTable.takeRows (q : QTable) (ps : List Nat) : QTable :=
  ⟨q.cls, ⟨q.table.schema, q.table.meta,
    [arrSelect ps (q.table.batches.foldl arrConcat (emptyOf q.table.schema))]⟩⟩

/-- The ascending positions of the rows of `vals` holding exactly `v` —
the bucket the equality index keeps for `v` (empty when `v` was never
seen while scanning the column). -/
def matchPos (vals : List Val) (v : Val) : List Nat :=
  (List.range vals.length).filter (fun i => vals.getD i vdefault == v)

/-- Modelled from the spec: `quivr.indexing.StringIndex`
(`quivr/indexing.py` is not under `src/`; §4.6): a point-in-time
equality index over one string column of an owning table. -/
structure StringIndex where
  tbl : QTable
  colName : Name

/-- Modelled from the spec: `StringIndex.lookup` (§4.6): return a new
table of exactly the rows whose indexed-column value equals the query,
in original row order, or the explicit no-match result (`none`, the
Python `None`) when the value was never seen in the column. -/
def StringIndex.lookup (ix : StringIndex) (s : List Char) : Option QTable :=
  let ps := matchPos (ix.tbl.colVals [ix.colName]) (Val.vstr s)
  cond ps.isEmpty none (some (ix.tbl.takeRows ps))

/-- A store of live table instances, with `defragment` run against the
table at position `i`: the result is a fresh instance appended to the
store; nothing defragment does writes into existing instances. -/
def defragmentAt (store : List QTable) (i : Nat) : List QTable :=
  store ++ [defragment (store.getD i default)]

/-- Semantic type tag of an Attribute field. -/
inductive AttrTy
  | aInt
  | aStr
deriving DecidableEq, Repr

/-- A scalar attribute value. -/
inductive AVal
  | aint (i : Int)
  | astr (s : List Char)
deriving DecidableEq, Repr

mutual
/-- Modelled from the spec: a Field Descriptor (§3): one named schema
slot of kind Column, Attribute or SubTable (the declarative field layer
of `quivr/fields.py` / `quivr/tables.py` is not under `src/`). -/
inductive FieldDecl where
  | column : Name → DType → FieldDecl
  | attrF : Name → AttrTy → FieldDecl
  | subtable : Name → SchemaDecl → FieldDecl
deriving DecidableEq, Repr
/-- An ordered list of Field Descriptors declaring one schema level. -/
inductive SchemaDecl where
  | snil : SchemaDecl
  | scons : FieldDecl → SchemaDecl → SchemaDecl
deriving DecidableEq, Repr
end

/-- The declared name of a field. -/
def FieldDecl.fname : FieldDecl → Name
  | .column n _ => n
  | .attrF n _ => n
  | .subtable n _ => n

/-- The names declared at one schema level, in order. -/
def SchemaDecl.names : SchemaDecl → List Name
  | .snil => []
  | .scons f s => f.fname :: s.names

/-- Prefix a nested attribute key with an enclosing SubTable field name
and the `.` separator. -/
def keyUnder (n : Name) (k : Name) : Name := n ++ '.' :: k

mutual
/-- Modelled from the spec: the attribute-key namespace one field
contributes to schema compilation (§4.1): an Attribute contributes its
own bare name; a SubTable contributes the nested schema's keys, each
prefixed with the SubTable field name and `.`; a Column contributes
nothing. Each key is paired with its attribute's semantic type. -/
def FieldDecl.keys : FieldDecl → List (Name × AttrTy)
  | .column _ _ => []
  | .attrF n t => [(n, t)]
  | .subtable n s => s.keysT.map (fun kt => (keyUnder n kt.1, kt.2))
/-- Modelled from the spec: the full typed attribute-key list of a
compiled schema (§4.1), in declaration order. -/
def SchemaDecl.keysT : SchemaDecl → List (Name × AttrTy)
  | .snil => []
  | .scons f s => f.keys ++ s.keysT
end

/-- The `attribute_keys` set of a Compiled Schema: the dotted-path
strings, without their types. -/
def SchemaDecl.attrKeys (s : SchemaDecl) : List Name :=
  s.keysT.map Prod.fst

/-- A name is non-dotted (the Field Descriptor name invariant of §3). -/
def noDot (n : Name) : Bool := n.all (fun c => c != '.')

mutual
/-- Well-formedness of one field: non-dotted name, nested schema
well-formed. -/
def FieldDecl.wfF : FieldDecl → Bool
  | .column n _ => noDot n
  | .attrF n _ => noDot n
  | .subtable n s => noDot n && s.wfS
/-- Well-formedness of a Field Descriptor list: names unique within the
level (else schema compilation raises `SchemaError`), each field
well-formed. -/
def SchemaDecl.wfS : SchemaDecl → Bool
  | .snil => true
  | .scons f s => f.wfF && decide (f.fname ∉ s.names) && s.wfS
end

mutual
/-- Nesting depth contributed by one field (SubTable fields add one). -/
def FieldDecl.depthF : FieldDecl → Nat
  | .column _ _ => 0
  | .attrF _ _ => 0
  | .subtable _ s => s.depthS + 1
/-- Nesting depth of a schema declaration. -/
def SchemaDecl.depthS : SchemaDecl → Nat
  | .snil => 0
  | .scons f s => max f.depthF s.depthS
end

/-- Whether `s` declares a top-level SubTable field `n` whose nested
schema is `sub`. -/
def SchemaDecl.hasSub : SchemaDecl → Name → SchemaDecl → Bool
  | .snil, _, _ => false
  | .scons f s, n, sub =>
    (f == .subtable n sub) || s.hasSub n sub

/-- Little-endian base-256 serialization of a natural, `k` bytes wide. -/
def toLE : Nat → Nat → List Nat
  | 0, _ => []
  | k + 1, n => n % 256 :: toLE k (n / 256)

/-- Read back a little-endian base-256 byte sequence. -/
def fromLE : List Nat → Nat
  | [] => 0
  | b :: bs => b + 256 * fromLE bs

/-- Modelled from the spec: the Metadata Codec's per-type value
serialization (§4.2, `quivr/attributes.py` is not under `src/`):
text as its UTF-8 code units, integers as fixed-width (8-byte)
little-endian two's complement. -/
def serVal : AVal → ByteStr
  | .astr s => s.map Char.toNat
  | .aint i => toLE 8 ((i % (2 ^ 64 : Int)).toNat)

/-- Modelled from the spec: the Metadata Codec's per-type parser,
inverse of `serVal`; `none` signals a malformed value
(`ValidationError`). -/
def parseVal : AttrTy → ByteStr → Option AVal
  | .aStr, bs => some (.astr (bs.map Char.ofNat))
  | .aInt, bs =>
    cond (bs.length == 8)
      (some (.aint
        (let n := fromLE bs
         if n < 2 ^ 63 then (n : Int) else (n : Int) - 2 ^ 64)))
      none

/-- Modelled from the spec: `encode` of the Metadata Codec (§4.2):
serialize every attribute value under its dotted-path key. -/
def encodeA (vals : List (Name × AVal)) : MetaMap :=
  vals.map (fun kv => (kv.1, serVal kv.2))

/-- First-match association lookup in a metadata map. -/
def lookupMM : MetaMap → Name → Option ByteStr
  | [], _ => none
  | (k', v) :: m, k => if k' = k then some v else lookupMM m k

/-- Modelled from the spec: the key-driven loop of `decode` (§4.2):
for every attribute key of the schema, require a metadata entry and
parse it at the declared type; a missing required key or a malformed
value fails with `ValidationError`. -/
def decodeGo : List (Name × AttrTy) → MetaMap → Except Err (List (Name × AVal))
  | [], _ => .ok []
  | (k, ty) :: kts, m =>
    match lookupMM m k with
    | none => .error .validationError
    | some bs =>
      match parseVal ty bs with
      | none => .error .validationError
      | some v => (decodeGo kts m).map (fun rest => (k, v) :: rest)

/-- Modelled from the spec: `decode` of the Metadata Codec (§4.2). -/
def decodeA (s : SchemaDecl) (m : MetaMap) : Except Err (List (Name × AVal)) :=
  decodeGo s.keysT m

/-- Type- and range-correctness of one attribute value at its declared
semantic type (ints must fit the fixed 8-byte width). -/
def valTyOk : AttrTy → AVal → Bool
  | .aStr, .astr _ => true
  | .aInt, .aint i => decide (-(2 ^ 63) ≤ i) && decide (i < 2 ^ 63)
  | _, _ => false

/-- A legal attribute value assignment: exactly the schema's typed keys,
in order, each value type- and range-correct. -/
def legalGo : List (Name × AttrTy) → List (Name × AVal) → Bool
  | [], [] => true
  | (k, ty) :: kts, (k', v) :: kvs => k == k' && valTyOk ty v && legalGo kts kvs
  | _, _ => false

/-- Legality of a value assignment against a schema declaration. -/
def legalA (s : SchemaDecl) (vals : List (Name × AVal)) : Bool :=
  legalGo s.keysT vals

/-- Strip a SubTable field-name prefix and its `.` from a key: `some` of
the remainder exactly when the key is the prefix plus `.` plus the
remainder. -/
def underSplit : Name → Name → Option Name
  | [], k =>
    match k with
    | '.' :: k' => some k'
    | _ => none
  | _ :: _, [] => none
  | c :: n, d :: k => if c = d then underSplit n k else none

/-- Modelled from the spec: nested-instance extraction on metadata
(§4.2): keep the entries whose key lies under the SubTable field name
and strip the prefix. -/
def stripMM (n : Name) (m : MetaMap) : MetaMap :=
  m.filterMap (fun kv => (underSplit n kv.1).map (fun k' => (k', kv.2)))

/-- The restriction of a value assignment to the attributes under one
SubTable field, with the prefix stripped. -/
def stripAV (n : Name) (vals : List (Name × AVal)) : List (Name × AVal) :=
  vals.filterMap (fun kv => (underSplit n kv.1).map (fun k' => (k', kv.2)))

/-- The leading run of non-dot characters of a key: for a well-formed
schema this recovers the name of the field that contributed the key. -/
def predot (k : Name) : Name := k.takeWhile (fun c => c != '.')

/-- The typed-key analogue of `stripMM`: restrict a typed key list to
the keys under a SubTable field name, stripping the prefix. -/
def stripKT (n : Name) (kts : List (Name × AttrTy)) : List (Name × AttrTy) :=
  kts.filterMap (fun kt => (underSplit n kt.1).map (fun k' => (k', kt.2)))

/-- The compiled physical schema of the `Pair` test class: two int64
columns `x` and `y` (src/test/test_tables.py via test_concat.py). -/
def pairSchema : DType :=
  .strct (.cons ['x'] (.prim .int64) (.cons ['y'] (.prim .int64) .nil))

/-- One record batch of a `Pair` table. -/
def pairBatch (xs ys : List Int) : Arr :=
  .strct xs.length
    (.acons ['x'] (.prim .int64 (xs.map Val.vint))
      (.acons ['y'] (.prim .int64 (ys.map Val.vint)) .anil))

/-- The `Pair` table class. -/
def pairCls : Cls := ⟨1, pairSchema⟩

/-- `Pair.from_arrays([[1,2,3],[4,5,6]])` of test_concat.py. -/
def pairT1 : QTable :=
  ⟨pairCls, ⟨pairSchema, [], [pairBatch [1, 2, 3] [4, 5, 6]]⟩⟩

/-- `Pair.from_arrays([[11,22,33],[44,55,66]])` of test_concat.py. -/
def pairT2 : QTable :=
  ⟨pairCls, ⟨pairSchema, [], [pairBatch [11, 22, 33] [44, 55, 66]]⟩⟩

/-- A `Pair` table carrying (distinct) schema metadata. -/
def pairT2m : QTable :=
  ⟨pairCls, ⟨pairSchema, [(['i', 'd'], [50])],
    [pairBatch [11, 22, 33] [44, 55, 66]]⟩⟩

/-- A fragmented `Pair` table: two chunks per column. -/
def pairFrag : QTable :=
  ⟨pairCls, ⟨pairSchema, [],
    [pairBatch [1, 2, 3] [4, 5, 6], pairBatch [11, 22, 33] [44, 55, 66]]⟩⟩

/-- A one-string-column schema, structurally different from `pairSchema`. -/
def soloStrSchema : DType := .strct (.cons ['x'] (.prim .str) .nil)

/-- One record batch of the one-string-column table. -/
def strBatch : Arr := .strct 1 (.acons ['x'] (.prim .str [.vstr ['a']]) .anil)

/-- A table whose compiled schema differs from `pairSchema`. -/
def soloStrT : QTable :=
  ⟨⟨2, soloStrSchema⟩, ⟨soloStrSchema, [], [strBatch]⟩⟩

/-- The result of `concatenate([pair1, pair2])` (defragmented). -/
def concatPairRes : QTable :=
  defragment ⟨pairCls, ⟨pairSchema, [],
    [pairBatch [1, 2, 3] [4, 5, 6], pairBatch [11, 22, 33] [44, 55, 66]]⟩⟩

/-- The `TableWithString` schema of src/test/test_indexing.py:
`id: int64, name: string, value: int64`. -/
def twsSchema : DType :=
  .strct (.cons ['i', 'd'] (.prim .int64)
    (.cons ['n', 'a', 'm', 'e'] (.prim .str)
      (.cons ['v', 'a', 'l', 'u', 'e'] (.prim .int64) .nil)))

/-- The `test_indexing_duplicate` table: rows
`(1,"a",4), (2,"a",5), (3,"c",6)`. -/
def twsT : QTable :=
  ⟨⟨3, twsSchema⟩, ⟨twsSchema, [],
    [.strct 3 (.acons ['i', 'd'] (.prim .int64 [.vint 1, .vint 2, .vint 3])
      (.acons ['n', 'a', 'm', 'e'] (.prim .str [.vstr ['a'], .vstr ['a'], .vstr ['c']])
        (.acons ['v', 'a', 'l', 'u', 'e'] (.prim .int64 [.vint 4, .vint 5, .vint 6])
          .anil)))]⟩⟩

/-- The `Inner` schema of test_nested_attribute_metadata:
`x: int64 column, id1: string attribute`. -/
def innerS : SchemaDecl :=
  .scons (.column ['x'] (.prim .int64))
    (.scons (.attrF ['i', 'd', '1'] .aStr) .snil)

/-- The `Middle` schema: `inner: Inner subtable, id2: string attribute`. -/
def middleS : SchemaDecl :=
  .scons (.subtable ['i', 'n', 'n', 'e', 'r'] innerS)
    (.scons (.attrF ['i', 'd', '2'] .aStr) .snil)

/-- The `Outer` schema: `middle: Middle subtable, id3: string attribute`
(nesting depth 2). -/
def outerS : SchemaDecl :=
  .scons (.subtable ['m', 'i', 'd', 'd', 'l', 'e'] middleS)
    (.scons (.attrF ['i', 'd', '3'] .aStr) .snil)

/-- The attribute assignment `id1="a", id2="b", id3="c"` of
test_nested_attribute_metadata, under its dotted-path keys. -/
def outerVals : List (Name × AVal) :=
  [(keyUnder ['m', 'i', 'd', 'd', 'l', 'e']
      (keyUnder ['i', 'n', 'n', 'e', 'r'] ['i', 'd', '1']), .astr ['a']),
   (keyUnder ['m', 'i', 'd', 'd', 'l', 'e'] ['i', 'd', '2'], .astr ['b']),
   (['i', 'd', '3'], .astr ['c'])]

/-- The shadowing schema of test_nested_table_shadowing: an outer
`id: int attribute` next to `inner: subtable` whose nested schema also
declares `id: int attribute`. -/
def shadInner : SchemaDecl :=
  .scons (.column ['x'] (.prim .int64))
    (.scons (.attrF ['i', 'd'] .aInt) .snil)

/-- Outer level of the shadowing schema. -/
def shadOuter : SchemaDecl :=
  .scons (.attrF ['i', 'd'] .aInt)
    (.scons (.subtable ['i', 'n', 'n', 'e', 'r'] shadInner) .snil)

/-- Whether a schema level declares exactly the given field. -/
def SchemaDecl.hasField : SchemaDecl → FieldDecl → Bool
  | .snil, _ => false
  | .scons f s, g => (f == g) || s.hasField g

mutual
theorem dtB_eq : ∀ {a b : DType}, dtB a b = true → a = b
  | .prim _, .prim _, h => by simp [dtB] at h; simp [h]
  | .strct f, .strct g, h => by simp [dtB] at h; simp [dfB_eq h]
  | .prim _, .strct _, h => by simp [dtB] at h
  | .strct _, .prim _, h => by simp [dtB] at h
theorem dfB_eq : ∀ {f g : DFields}, dfB f g = true → f = g
  | .nil, .nil, _ => rfl
  | .cons n t f, .cons n' t' f', h => by
      simp [dfB] at h
      obtain ⟨⟨h1, h2⟩, h3⟩ := h
      simp [h1, dtB_eq h2, dfB_eq h3]
  | .nil, .cons _ _ _, h => by simp [dfB] at h
  | .cons _ _ _, .nil, h => by simp [dfB] at h
end

mutual
theorem dtB_refl : ∀ a : DType, dtB a a = true
  | .prim _ => by simp [dtB]
  | .strct f => by simp [dtB, dfB_refl f]
theorem dfB_refl : ∀ f : DFields, dfB f f = true
  | .nil => rfl
  | .cons n t f => by simp [dfB, dtB_refl t, dfB_refl f]
end

theorem dtB_iff {a b : DType} : dtB a b = true ↔ a = b :=
  ⟨dtB_eq, fun h => h ▸ dtB_refl a⟩

mutual
theorem dtype_arrConcat : ∀ a b : Arr, a.dtype = b.dtype → (arrConcat a b).dtype = a.dtype
  | .prim t vs, .prim t' ws, _ => by simp [arrConcat, Arr.dtype]
  | .strct n fs, .strct m gs, h => by
      simp only [Arr.dtype, DType.strct.injEq] at h
      simp [arrConcat, Arr.dtype, dtypes_afConcat fs gs h]
  | .prim _ _, .strct _ _, h => by simp [Arr.dtype] at h
  | .strct _ _, .prim _ _, h => by simp [Arr.dtype] at h
theorem dtypes_afConcat : ∀ fs gs : AFields, fs.dtypes = gs.dtypes → (afConcat fs gs).dtypes = fs.dtypes
  | .anil, gs, _ => by simp [afConcat]
  | .acons n a fs, .acons n' b gs, h => by
      simp only [AFields.dtypes, DFields.cons.injEq] at h
      obtain ⟨h1, h2, h3⟩ := h
      simp [afConcat, AFields.dtypes, dtype_arrConcat a b h2, dtypes_afConcat fs gs h3]
  | .acons _ _ _, .anil, h => by simp [AFields.dtypes] at h
end

theorem nrows_arrConcat (a b : Arr) (h : a.dtype = b.dtype) :
    (arrConcat a b).nrows = a.nrows + b.nrows := by
  cases a <;> cases b <;> simp_all [Arr.dtype, arrConcat, Arr.nrows]

mutual
theorem dtype_emptyOf : ∀ s : DType, (emptyOf s).dtype = s
  | .prim _ => by simp [emptyOf, Arr.dtype]
  | .strct fs => by simp [emptyOf, Arr.dtype, dtypes_emptyFs fs]
theorem dtypes_emptyFs : ∀ fs : DFields, (emptyFs fs).dtypes = fs
  | .nil => rfl
  | .cons n t fs => by simp [emptyFs, AFields.dtypes, dtype_emptyOf t, dtypes_emptyFs fs]
end

theorem nrows_emptyOf (s : DType) : (emptyOf s).nrows = 0 := by
  cases s <;> simp [emptyOf, Arr.nrows]

theorem find_emptyFs : ∀ (fs : DFields) (c : Name),
    (emptyFs fs).find c = (fs.findT c).map emptyOf
  | .nil, c => by simp [emptyFs, AFields.find, DFields.findT]
  | .cons n t fs, c => by
      by_cases hc : n = c <;>
        simp [emptyFs, AFields.find, DFields.findT, hc, find_emptyFs fs c]

theorem leafVals_emptyOf (p : List Name) (s : DType) : leafVals p (emptyOf s) = [] := by
  induction p generalizing s with
  | nil => cases s <;> simp [emptyOf, leafVals]
  | cons c p ih =>
      cases s with
      | prim t => simp [emptyOf, leafVals]
      | strct fs =>
          simp only [emptyOf, leafVals, find_emptyFs]
          cases fs.findT c with
          | none => simp
          | some t => simp [ih]

mutual
theorem leafVals_arrConcat : ∀ (a b : Arr), a.dtype = b.dtype → ∀ p,
    leafVals p (arrConcat a b) = leafVals p a ++ leafVals p b
  | .prim t vs, .prim t' ws, _, [] => by simp [arrConcat, leafVals]
  | .prim t vs, .prim t' ws, _, c :: p => by simp [arrConcat, leafVals]
  | .strct n fs, .strct m gs, h, [] => by simp [arrConcat, leafVals]
  | .strct n fs, .strct m gs, h, c :: p => by
      simp only [Arr.dtype, DType.strct.injEq] at h
      simpa [arrConcat, leafVals] using leafVals_find_afConcat fs gs h c p
  | .prim _ _, .strct _ _, h, _ => by simp [Arr.dtype] at h
  | .strct _ _, .prim _ _, h, _ => by simp [Arr.dtype] at h
theorem leafVals_find_afConcat : ∀ (fs gs : AFields), fs.dtypes = gs.dtypes →
    ∀ (c : Name) (p : List Name),
    (match (afConcat fs gs).find c with | some a => leafVals p a | none => []) =
    (match fs.find c with | some a => leafVals p a | none => []) ++
    (match gs.find c with | some a => leafVals p a | none => [])
  | .anil, .anil, _, c, p => by simp [afConcat, AFields.find]
  | .acons n a fs, .acons n' b gs, h, c, p => by
      simp only [AFields.dtypes, DFields.cons.injEq] at h
      obtain ⟨h1, h2, h3⟩ := h
      subst h1
      by_cases hc : n = c
      · subst hc
        simp [afConcat, AFields.find, leafVals_arrConcat a b h2]
      · simp only [afConcat, AFields.find, if_neg hc]
        exact leafVals_find_afConcat fs gs h3 c p
  | .anil, .acons _ _ _, h, _, _ => by simp [AFields.dtypes] at h
  | .acons _ _ _, .anil, h, _, _ => by simp [AFields.dtypes] at h
end

/-- Folding `arrConcat` over a list of same-typed chunks preserves the
data type, adds up the row counts, and concatenates every leaf column's
value sequence, in order. -/
theorem foldl_arrConcat_props (s : DType) (bs : List Arr) :
    ∀ (e : Arr), e.dtype = s → (∀ b ∈ bs, b.dtype = s) →
    (bs.foldl arrConcat e).dtype = s ∧
    (bs.foldl arrConcat e).nrows = e.nrows + (bs.map Arr.nrows).sum ∧
    ∀ p, leafVals p (bs.foldl arrConcat e) = leafVals p e ++ (bs.map (leafVals p)).flatten := by
  induction bs with
  | nil => intro e he _; simp [he]
  | cons b bs ih =>
      intro e he hb
      have hbd : b.dtype = s := hb b (by simp)
      have heb : e.dtype = b.dtype := by rw [he, hbd]
      have he' : (arrConcat e b).dtype = s := by rw [dtype_arrConcat e b heb, he]
      have hb' : ∀ x ∈ bs, x.dtype = s := fun x hx => hb x (by simp [hx])
      obtain ⟨d1, d2, d3⟩ := ih (arrConcat e b) he' hb'
      refine ⟨by simpa using d1, ?_, ?_⟩
      · simp only [List.foldl_cons] at *
        rw [d2, nrows_arrConcat e b heb]
        simp [Nat.add_assoc]
      · intro p
        simp only [List.foldl_cons] at *
        rw [d3 p, leafVals_arrConcat e b heb]
        simp

theorem foldl_append_flatten {α β : Type} (f : α → List β) :
    ∀ (l : List α) (acc : List β),
    l.foldl (fun acc v => acc ++ f v) acc = acc ++ (l.map f).flatten := by
  intro l
  induction l with
  | nil => simp
  | cons x l ih => intro acc; simp [ih]

theorem gatherBatches_eq (values : List QTable) :
    gatherBatches values = (values.map (fun v => v.table.toBatches)).flatten := by
  simpa [gatherBatches] using
    foldl_append_flatten (fun v : QTable => v.table.toBatches) values []

/-- Everything `defragment` preserves and establishes, given batches
that conform to the table's schema: same class, schema, metadata and
row count, the same value sequence for every physical leaf column, and
exactly one chunk per column afterwards. -/
theorem defragment_props (q : QTable)
    (h : q.table.batches.all (fun b => dtB b.dtype q.table.schema) = true) :
    (defragment q).cls = q.cls ∧
    (defragment q).table.schema = q.table.schema ∧
    (defragment q).table.meta = q.table.meta ∧
    (defragment q).chunkCount = 1 ∧
    (defragment q).rowCount = q.rowCount ∧
    ∀ p, (defragment q).colVals p = q.colVals p := by
  have hall : ∀ b ∈ q.table.batches, b.dtype = q.table.schema := by
    intro b hb
    exact dtB_eq (by simpa using (List.all_eq_true.mp h) b hb)
  obtain ⟨d1, d2, d3⟩ :=
    foldl_arrConcat_props q.table.schema q.table.batches (emptyOf q.table.schema)
      (dtype_emptyOf _) hall
  refine ⟨rfl, rfl, rfl, rfl, ?_, ?_⟩
  · simp [defragment, combineChunks, QTable.rowCount, d2, nrows_emptyOf]
  · intro p
    simp [defragment, combineChunks, QTable.colVals, d3 p, leafVals_emptyOf]

/-- The success path of `concatenate`, fully explicit: when the first
input has at least one chunk, every input's arrow table carries the
same physical schema, every input's batches conform to it, and the
first input's class compiles to that schema, `concatenate` succeeds and
returns exactly the first input's class wrapped around the combined
batch list (first input's metadata), defragmented iff requested. -/
theorem concatenate_ok (v0 : QTable) (rest : List QTable) (d : Bool)
    (hb : v0.table.batches ≠ [])
    (hwf : ∀ v ∈ v0 :: rest, v.wfq = true)
    (hs : ∀ v ∈ rest, v.table.schema = v0.table.schema) :
    concatenate (v0 :: rest) d =
      .ok (cond d
        (defragment ⟨v0.cls, v0.table.schema, v0.table.meta,
          ((v0 :: rest).map (fun v => v.table.batches)).flatten⟩)
        ⟨v0.cls, v0.table.schema, v0.table.meta,
          ((v0 :: rest).map (fun v => v.table.batches)).flatten⟩) := by
  have hwf0 := hwf v0 (by simp)
  simp only [QTable.wfq, Bool.and_eq_true, List.all_eq_true] at hwf0
  obtain ⟨hcs0, hbat0⟩ := hwf0
  -- every gathered record batch's data conforms to v0's schema
  have hrb : ∀ r ∈ gatherBatches (v0 :: rest), r.data.dtype = v0.table.schema := by
    intro r hr
    rw [gatherBatches_eq, List.mem_flatten] at hr
    obtain ⟨l, hl, hrl⟩ := hr
    rw [List.mem_map] at hl
    obtain ⟨v, hv, rfl⟩ := hl
    simp only [PATable.toBatches, List.mem_map] at hrl
    obtain ⟨a, ha, rfl⟩ := hrl
    have hvwf := hwf v hv
    rw [QTable.wfq, Bool.and_eq_true] at hvwf
    have hda : a.dtype = v.table.schema :=
      dtB_eq (by simpa using List.all_eq_true.mp hvwf.2 a ha)
    show a.dtype = v0.table.schema
    rw [hda]
    rcases List.mem_cons.mp hv with rfl | hv'
    · rfl
    · exact hs v hv'
  -- the gathered batch list decomposes with v0's first batch in front
  obtain ⟨a0, as, hbs⟩ : ∃ a0 as, v0.table.batches = a0 :: as := by
    cases hq : v0.table.batches with
    | nil => exact absurd hq hb
    | cons a as => exact ⟨a, as, rfl⟩
  have hgb : gatherBatches (v0 :: rest) =
      ⟨v0.table.meta, a0⟩ ::
        (as.map (fun a => (⟨v0.table.meta, a⟩ : RB)) ++
          (rest.map (fun v => v.table.toBatches)).flatten) := by
    rw [gatherBatches_eq]
    simp [PATable.toBatches, hbs]
  have ha0 : a0.dtype = v0.table.schema := by
    have := hrb ⟨v0.table.meta, a0⟩ (by rw [hgb]; simp)
    simpa using this
  have hall : (List.all
      (as.map (fun a => (⟨v0.table.meta, a⟩ : RB)) ++
        (rest.map (fun v => v.table.toBatches)).flatten)
      (fun r => dtB r.data.dtype (⟨v0.table.meta, a0⟩ : RB).data.dtype)) = true := by
    rw [List.all_eq_true]
    intro r hr
    have hr' : r ∈ gatherBatches (v0 :: rest) := by rw [hgb]; simp [hr]
    have := hrb r hr'
    simp only [this, ha0]
    exact dtB_refl _
  have hone : ∀ v : QTable, List.map RB.data v.table.toBatches = v.table.batches := by
    intro v
    simp [PATable.toBatches, List.map_map, Function.comp_def]
  have hdata : (gatherBatches (v0 :: rest)).map RB.data =
      ((v0 :: rest).map (fun v => v.table.batches)).flatten := by
    rw [gatherBatches_eq, List.map_flatten, List.map_map]
    congr 1
    simp only [Function.comp_def, hone]
  unfold concatenate
  rw [hgb]
  simp only [paFromBatches, hall, cond_true]
  rw [← hgb, hdata]
  simp only [bind, Except.bind, clsFromTable, ha0, hcs0, cond_true, pure,
    Except.pure]

theorem predot_noDot {n : Name} (h : noDot n = true) : predot n = n := by
  induction n with
  | nil => rfl
  | cons c n ih =>
      simp only [noDot, List.all_cons, Bool.and_eq_true] at h
      simp only [predot, List.takeWhile_cons, h.1, cond_true]
      have := ih (by simpa [noDot] using h.2)
      simpa [predot] using this

theorem predot_keyUnder {n : Name} (k : Name) (h : noDot n = true) :
    predot (keyUnder n k) = n := by
  induction n with
  | nil => simp [keyUnder, predot]
  | cons c n ih =>
      simp only [noDot, List.all_cons, Bool.and_eq_true] at h
      have := ih (by simpa [noDot] using h.2)
      simp only [keyUnder, List.cons_append, predot, List.takeWhile_cons, h.1,
        cond_true, List.cons.injEq, true_and]
      simpa [keyUnder, predot] using this

theorem dot_mem_keyUnder (n k : Name) : '.' ∈ keyUnder n k := by
  simp [keyUnder]

theorem keyUnder_inj {n : Name} {k1 k2 : Name} (h : keyUnder n k1 = keyUnder n k2) :
    k1 = k2 := by
  simpa [keyUnder] using h

/-- Every attribute key a well-formed field contributes starts with the
field's own name (up to the first dot). -/
theorem key_pred (f : FieldDecl) (hw : f.wfF = true) :
    ∀ kt ∈ f.keys, predot kt.1 = f.fname := by
  intro kt hk
  cases f with
  | column n t => simp [FieldDecl.keys] at hk
  | attrF n t =>
      simp only [FieldDecl.keys, List.mem_singleton] at hk
      subst hk
      exact predot_noDot (by simpa [FieldDecl.wfF] using hw)
  | subtable n s =>
      simp only [FieldDecl.keys, List.mem_map] at hk
      obtain ⟨kt', _, rfl⟩ := hk
      simp only [FieldDecl.wfF, Bool.and_eq_true] at hw
      exact predot_keyUnder kt'.1 hw.1

/-- Every attribute key of a well-formed schema level starts with the
name of one of the level's fields. -/
theorem key_predot_names : ∀ s : SchemaDecl, s.wfS = true →
    ∀ kt ∈ s.keysT, predot kt.1 ∈ s.names
  | .snil, _, kt, h => by simp [SchemaDecl.keysT] at h
  | .scons f s, hw, kt, h => by
      simp only [SchemaDecl.wfS, Bool.and_eq_true] at hw
      obtain ⟨⟨hf, _⟩, hws⟩ := hw
      simp only [SchemaDecl.keysT, List.mem_append] at h
      simp only [SchemaDecl.names, List.mem_cons]
      rcases h with h | h
      · exact Or.inl (key_pred f hf kt h)
      · exact Or.inr (key_predot_names s hws kt h)

mutual
/-- The attribute keys one well-formed field contributes are pairwise
distinct. -/
theorem keys_nodup_f : ∀ f : FieldDecl, f.wfF = true →
    (f.keys.map Prod.fst).Nodup
  | .column n t, _ => by simp [FieldDecl.keys]
  | .attrF n t, _ => by simp [FieldDecl.keys]
  | .subtable n s, hw => by
      simp only [FieldDecl.wfF, Bool.and_eq_true] at hw
      have hs := keys_nodup_s s hw.2
      simp only [FieldDecl.keys, List.map_map]
      have : (List.map (Prod.fst ∘ fun kt : Name × AttrTy => (keyUnder n kt.1, kt.2))
          s.keysT) = List.map (keyUnder n) (s.keysT.map Prod.fst) := by
        simp [List.map_map, Function.comp_def]
      rw [this]
      exact hs.map (fun k1 k2 h => keyUnder_inj h)
/-- The dotted-path attribute keys of a well-formed compiled schema are
pairwise distinct across the whole schema. -/
theorem keys_nodup_s : ∀ s : SchemaDecl, s.wfS = true →
    (s.keysT.map Prod.fst).Nodup
  | .snil, _ => by simp [SchemaDecl.keysT]
  | .scons f s, hw => by
      simp only [SchemaDecl.wfS, Bool.and_eq_true, decide_eq_true_eq] at hw
      obtain ⟨⟨hf, hname⟩, hws⟩ := hw
      simp only [SchemaDecl.keysT, List.map_append]
      rw [List.nodup_append]
      refine ⟨keys_nodup_f f hf, keys_nodup_s s hws, ?_⟩
      intro k hk1 hk2
      simp only [List.mem_map] at hk1 hk2
      obtain ⟨kt1, hkt1, rfl⟩ := hk1
      obtain ⟨kt2, hkt2, h2⟩ := hk2
      have e1 : predot kt1.1 = f.fname := key_pred f hf kt1 hkt1
      have e2 : predot kt2.1 ∈ s.names := key_predot_names s hws kt2 hkt2
      rw [h2, e1] at e2
      exact hname e2
end

theorem underSplit_keyUnder : ∀ n k : Name, underSplit n (keyUnder n k) = some k
  | [], k => by simp [underSplit, keyUnder]
  | c :: n, k => by
      simpa [underSplit, keyUnder] using underSplit_keyUnder n k

theorem underSplit_some : ∀ {n k k' : Name}, underSplit n k = some k' → k = keyUnder n k'
  | [], k, k', h => by
      cases k with
      | nil => simp [underSplit] at h
      | cons d rest =>
          by_cases hd : d = '.'
          · subst hd
            simp only [underSplit] at h
            simp only [Option.some.injEq] at h
            simp [keyUnder, h]
          · simp [underSplit, hd] at h
  | c :: n, k, k', h => by
      cases k with
      | nil => simp [underSplit] at h
      | cons d rest =>
          simp only [underSplit] at h
          by_cases hcd : c = d
          · rw [if_pos hcd] at h
            have := underSplit_some h
            subst hcd
            simp [keyUnder, this]
          · rw [if_neg hcd] at h
            exact absurd h (by simp)

theorem underSplit_none_of_noDot {a : Name} (n : Name) (h : noDot a = true) :
    underSplit n a = none := by
  cases hu : underSplit n a with
  | none => rfl
  | some k' =>
      exfalso
      have ha : a = keyUnder n k' := underSplit_some hu
      have hd : '.' ∈ a := ha ▸ dot_mem_keyUnder n k'
      simp only [noDot, List.all_eq_true] at h
      simpa using h '.' hd

theorem underSplit_keyUnder_ne {n n2 : Name} (k : Name) (hn : noDot n = true)
    (hn2 : noDot n2 = true) (hne : n2 ≠ n) :
    underSplit n (keyUnder n2 k) = none := by
  cases hu : underSplit n (keyUnder n2 k) with
  | none => rfl
  | some k' =>
      exfalso
      have he : keyUnder n2 k = keyUnder n k' := underSplit_some hu
      have e1 : predot (keyUnder n2 k) = n2 := predot_keyUnder k hn2
      have e2 : predot (keyUnder n k') = n := predot_keyUnder k' hn
      rw [he, e2] at e1
      exact hne e1.symm

theorem stripKT_nil_of (n : Name) (kts : List (Name × AttrTy))
    (h : ∀ kt ∈ kts, underSplit n kt.1 = none) : stripKT n kts = [] := by
  induction kts with
  | nil => rfl
  | cons kt kts ih =>
      have h0 := h kt (by simp)
      simp only [stripKT, List.filterMap_cons, h0, Option.map_none']
      exact ih (fun kt' hk' => h kt' (by simp [hk']))

theorem stripKT_map_keyUnder (n : Name) (l : List (Name × AttrTy)) :
    stripKT n (l.map (fun kt => (keyUnder n kt.1, kt.2))) = l := by
  induction l with
  | nil => rfl
  | cons kt l ih =>
      simp only [stripKT, List.map_cons, List.filterMap_cons, underSplit_keyUnder,
        Option.map_some']
      simpa [stripKT] using ih

theorem underSplit_key_of_level {s : SchemaDecl} (hw : s.wfS = true) {n : Name}
    (hnd : noDot n = true) (hnn : n ∉ s.names) :
    ∀ kt ∈ s.keysT, underSplit n kt.1 = none := by
  intro kt hk
  cases hu : underSplit n kt.1 with
  | none => rfl
  | some k'' =>
      exfalso
      have hk1 : kt.1 = keyUnder n k'' := underSplit_some hu
      have hp : predot kt.1 = n := by rw [hk1]; exact predot_keyUnder k'' hnd
      have := key_predot_names s hw kt hk
      rw [hp] at this
      exact hnn this

theorem underSplit_key_of_field {f : FieldDecl} (hf : f.wfF = true) {n : Name}
    (hnd : noDot n = true) (hne : f.fname ≠ n) :
    ∀ kt ∈ f.keys, underSplit n kt.1 = none := by
  intro kt hk
  cases hu : underSplit n kt.1 with
  | none => rfl
  | some k'' =>
      exfalso
      have hk1 : kt.1 = keyUnder n k'' := underSplit_some hu
      have hp : predot kt.1 = n := by rw [hk1]; exact predot_keyUnder k'' hnd
      rw [key_pred f hf kt hk] at hp
      exact hne hp

theorem hasSub_props : ∀ s : SchemaDecl, s.wfS = true → ∀ n sub,
    s.hasSub n sub = true → noDot n = true ∧ sub.wfS = true ∧ n ∈ s.names
  | .snil, _, n, sub, h => by simp [SchemaDecl.hasSub] at h
  | .scons f s, hw, n, sub, h => by
      simp only [SchemaDecl.wfS, Bool.and_eq_true, decide_eq_true_eq] at hw
      obtain ⟨⟨hf, hname⟩, hws⟩ := hw
      simp only [SchemaDecl.hasSub, Bool.or_eq_true, beq_iff_eq] at h
      rcases h with rfl | h
      · simp only [FieldDecl.wfF, Bool.and_eq_true] at hf
        exact ⟨hf.1, hf.2, by simp [SchemaDecl.names, FieldDecl.fname]⟩
      · obtain ⟨h1, h2, h3⟩ := hasSub_props s hws n sub h
        exact ⟨h1, h2, by simp [SchemaDecl.names, h3]⟩

/-- Restricting a well-formed schema's typed key list to the keys under
a declared SubTable field and stripping the prefix recovers exactly the
nested schema's own typed key list. -/
theorem stripKT_keysT : ∀ s : SchemaDecl, s.wfS = true → ∀ n sub,
    s.hasSub n sub = true → stripKT n s.keysT = sub.keysT
  | .snil, _, n, sub, h => by simp [SchemaDecl.hasSub] at h
  | .scons f s, hw, n, sub, h => by
      simp only [SchemaDecl.wfS, Bool.and_eq_true, decide_eq_true_eq] at hw
      obtain ⟨⟨hf, hname⟩, hws⟩ := hw
      simp only [SchemaDecl.hasSub, Bool.or_eq_true, beq_iff_eq] at h
      have happ : stripKT n (SchemaDecl.keysT (.scons f s)) =
          stripKT n f.keys ++ stripKT n s.keysT := by
        simp [SchemaDecl.keysT, stripKT, List.filterMap_append]
      rcases h with rfl | h
      · -- the head field is the SubTable in question
        have hfn : noDot n = true ∧ sub.wfS = true := by
          simpa [FieldDecl.wfF, Bool.and_eq_true] using hf
        have h1 : stripKT n (FieldDecl.keys (.subtable n sub)) = sub.keysT := by
          simp only [FieldDecl.keys]
          exact stripKT_map_keyUnder n sub.keysT
        have h2 : stripKT n s.keysT = [] := by
          apply stripKT_nil_of
          exact underSplit_key_of_level hws hfn.1
            (by simpa [FieldDecl.fname] using hname)
        rw [happ, h1, h2, List.append_nil]
      · -- the SubTable in question lives further down the level
        obtain ⟨hnd, hsubwf, hmem⟩ := hasSub_props s hws n sub h
        have hne : f.fname ≠ n := fun he => hname (he ▸ hmem)
        have h1 : stripKT n f.keys = [] :=
          stripKT_nil_of n f.keys (underSplit_key_of_field hf hnd hne)
        rw [happ, h1, stripKT_keysT s hws n sub h, List.nil_append]

theorem toLE_length : ∀ (k n : Nat), (toLE k n).length = k
  | 0, _ => rfl
  | k + 1, n => by simp [toLE, toLE_length k]

theorem fromLE_toLE : ∀ (k n : Nat), fromLE (toLE k n) = n % 256 ^ k
  | 0, n => by simp [toLE, fromLE, Nat.mod_one]
  | k + 1, n => by
      simp only [toLE, fromLE, fromLE_toLE k]
      have : (256 : Nat) ^ (k + 1) = 256 * 256 ^ k := by ring
      rw [this, Nat.mod_mul]

theorem parse_serVal : ∀ (ty : AttrTy) (v : AVal), valTyOk ty v = true →
    parseVal ty (serVal v) = some v
  | .aStr, .astr s, _ => by
      simp [parseVal, serVal, List.map_map, Function.comp_def, Char.ofNat_toNat]
  | .aStr, .aint _, h => by simp [valTyOk] at h
  | .aInt, .astr _, h => by simp [valTyOk] at h
  | .aInt, .aint i, h => by
      simp only [valTyOk, Bool.and_eq_true, decide_eq_true_eq] at h
      obtain ⟨h1, h2⟩ := h
      set e : Int := i % (2 ^ 64 : Int) with he
      have he0 : 0 ≤ e := Int.emod_nonneg i (by norm_num)
      have heL : e < 2 ^ 64 := Int.emod_lt_of_pos i (by norm_num)
      have hm : ((e.toNat : Int)) = e := Int.toNat_of_nonneg he0
      have hmlt : e.toNat < 2 ^ 64 := by omega
      have hn : fromLE (toLE 8 e.toNat) = e.toNat := by
        rw [fromLE_toLE 8 e.toNat]
        have h256 : (256 : Nat) ^ 8 = 2 ^ 64 := by norm_num
        rw [h256, Nat.mod_eq_of_lt hmlt]
      have hei : (0 ≤ i ∧ e = i) ∨ (i < 0 ∧ e = i + 2 ^ 64) := by
        rcases le_or_lt 0 i with hi | hi
        · exact Or.inl ⟨hi, by rw [he]; exact Int.emod_eq_of_lt hi (by omega)⟩
        · refine Or.inr ⟨hi, ?_⟩
          rw [he]
          have hsh : i % (2 ^ 64 : Int) = (i + 2 ^ 64 * 1) % 2 ^ 64 := by
            rw [Int.add_mul_emod_self_left]
          rw [hsh, mul_one]
          exact Int.emod_eq_of_lt (by omega) (by omega)
      simp only [serVal, ← he, parseVal, toLE_length, beq_self_eq_true, cond_true,
        hn]
      by_cases hb : e.toNat < 2 ^ 63
      · rw [if_pos hb]
        have hgoal : (e.toNat : Int) = i := by
          rcases hei with ⟨hi, hev⟩ | ⟨hi, hev⟩ <;> omega
        rw [hgoal]
      · rw [if_neg hb]
        have hgoal : (e.toNat : Int) - 2 ^ 64 = i := by
          rcases hei with ⟨hi, hev⟩ | ⟨hi, hev⟩ <;> omega
        rw [hgoal]

theorem stripMM_encodeA (n : Name) (vals : List (Name × AVal)) :
    stripMM n (encodeA vals) = encodeA (stripAV n vals) := by
  induction vals with
  | nil => rfl
  | cons kv vals ih =>
      simp only [encodeA, List.map_cons, stripMM, List.filterMap_cons, stripAV]
      cases hu : underSplit n kv.1 with
      | none =>
          simpa [stripMM, stripAV, encodeA] using ih
      | some k' =>
          simpa [stripMM, stripAV, encodeA] using ih

theorem legalGo_strip (n : Name) : ∀ (kts : List (Name × AttrTy))
    (vals : List (Name × AVal)), legalGo kts vals = true →
    legalGo (stripKT n kts) (stripAV n vals) = true
  | [], [], _ => rfl
  | [], _ :: _, h => by simp [legalGo] at h
  | _ :: _, [], h => by simp [legalGo] at h
  | (k, ty) :: kts, (k', v) :: vals, h => by
      simp only [legalGo, Bool.and_eq_true, beq_iff_eq] at h
      obtain ⟨⟨hk, hv⟩, hrest⟩ := h
      subst hk
      have ih := legalGo_strip n kts vals hrest
      simp only [stripKT, stripAV, List.filterMap_cons]
      cases hu : underSplit n k with
      | none => simpa [stripKT, stripAV] using ih
      | some k'' =>
          simp only [Option.map_some']
          simp only [legalGo, Bool.and_eq_true, beq_self_eq_true, true_and]
          exact ⟨hv, by simpa [stripKT, stripAV] using ih⟩

theorem decodeGo_encode : ∀ (kts : List (Name × AttrTy))
    (vals : List (Name × AVal)) (m : MetaMap),
    legalGo kts vals = true → (kts.map Prod.fst).Nodup →
    (∀ k ∈ kts.map Prod.fst, lookupMM m k = lookupMM (encodeA vals) k) →
    decodeGo kts m = .ok vals
  | [], [], m, _, _, _ => rfl
  | [], _ :: _, m, h, _, _ => by simp [legalGo] at h
  | _ :: _, [], m, h, _, _ => by simp [legalGo] at h
  | (k, ty) :: kts, (k', v) :: vals, m, h, hnd, hlook => by
      simp only [legalGo, Bool.and_eq_true, beq_iff_eq] at h
      obtain ⟨⟨hk, hv⟩, hrest⟩ := h
      subst hk
      have hl0 : lookupMM m k = some (serVal v) := by
        have hmem : k ∈ ((k, ty) :: kts).map Prod.fst := by
          rw [List.map_cons]
          exact List.mem_cons_self _ _
        rw [hlook k hmem]
        simp [encodeA, lookupMM]
      rw [List.map_cons, List.nodup_cons] at hnd
      have hlook' : ∀ k'' ∈ kts.map Prod.fst,
          lookupMM m k'' = lookupMM (encodeA vals) k'' := by
        intro k'' hk''
        have hmem : k'' ∈ ((k, ty) :: kts).map Prod.fst := by
          rw [List.map_cons]
          exact List.mem_cons_of_mem _ hk''
        rw [hlook k'' hmem]
        have hne : k ≠ k'' := fun he => hnd.1 (he ▸ hk'')
        simp [encodeA, lookupMM, hne]
      simp only [decodeGo, hl0, parse_serVal ty v hv,
        decodeGo_encode kts vals m hrest hnd.2 hlook', Except.map]

theorem decodeA_encodeA (s : SchemaDecl) (vals : List (Name × AVal))
    (hw : s.wfS = true) (hl : legalA s vals = true) :
    decodeA s (encodeA vals) = .ok vals :=
  decodeGo_encode s.keysT vals (encodeA vals) hl (keys_nodup_s s hw)
    (fun _ _ => rfl)

theorem decodeA_strip (s : SchemaDecl) (vals : List (Name × AVal))
    (n : Name) (sub : SchemaDecl) (hw : s.wfS = true)
    (hl : legalA s vals = true) (hsub : s.hasSub n sub = true) :
    decodeA sub (stripMM n (encodeA vals)) = .ok (stripAV n vals) := by
  rw [stripMM_encodeA]
  have h1 : stripKT n s.keysT = sub.keysT := stripKT_keysT s hw n sub hsub
  have h2 : legalGo sub.keysT (stripAV n vals) = true := by
    rw [← h1]
    exact legalGo_strip n s.keysT vals hl
  obtain ⟨_, hsubwf, _⟩ := hasSub_props s hw n sub hsub
  exact decodeGo_encode sub.keysT (stripAV n vals) _ h2
    (keys_nodup_s sub hsubwf) (fun _ _ => rfl)

theorem findT_dtypes : ∀ (fs : AFields) (c : Name),
    fs.dtypes.findT c = (fs.find c).map Arr.dtype
  | .anil, c => rfl
  | .acons n a fs, c => by
      by_cases hc : n = c <;>
        simp [AFields.dtypes, AFields.find, DFields.findT, hc, findT_dtypes fs c]

theorem find_afSelect : ∀ (ps : List Nat) (fs : AFields) (c : Name),
    (afSelect ps fs).find c = (fs.find c).map (arrSelect ps)
  | ps, .anil, c => rfl
  | ps, .acons n a fs, c => by
      by_cases hc : n = c <;>
        simp [afSelect, AFields.find, hc, find_afSelect ps fs c]

theorem nrows_arrSelect (ps : List Nat) (a : Arr) :
    (arrSelect ps a).nrows = ps.length := by
  cases a <;> simp [arrSelect, Arr.nrows]

theorem leafVals_arrSelect : ∀ (p : List Name) (a : Arr) (ps : List Nat),
    validLeafB p a.dtype = true →
    leafVals p (arrSelect ps a) = ps.map (fun i => (leafVals p a).getD i vdefault)
  | [], a, ps, h => by
      cases a with
      | prim t vs => simp [arrSelect, leafVals]
      | strct n fs => simp [Arr.dtype, validLeafB] at h
  | c :: p, a, ps, h => by
      cases a with
      | prim t vs => simp [Arr.dtype, validLeafB] at h
      | strct n fs =>
          simp only [Arr.dtype, validLeafB, findT_dtypes] at h
          cases hf : fs.find c with
          | none => rw [hf] at h; simp at h
          | some a' =>
              rw [hf] at h
              simp only [Option.map_some'] at h
              simp only [arrSelect, leafVals, find_afSelect, hf, Option.map_some']
              exact leafVals_arrSelect p a' ps h

theorem matchPos_mem (vals : List Val) (v : Val) (i : Nat) :
    i ∈ matchPos vals v ↔ i < vals.length ∧ vals.getD i vdefault = v := by
  simp [matchPos, List.mem_filter, List.mem_range, beq_iff_eq]

theorem matchPos_eq_nil {vals : List Val} {v : Val} (h : v ∉ vals) :
    matchPos vals v = [] := by
  rw [List.eq_nil_iff_forall_not_mem]
  intro i hi
  rw [matchPos_mem] at hi
  apply h
  rw [← hi.2, List.getD_eq_getElem vals vdefault hi.1]
  exact List.getElem_mem hi.1

theorem matchPos_ne_nil {vals : List Val} {v : Val} (h : v ∈ vals) :
    matchPos vals v ≠ [] := by
  obtain ⟨i, hi, he⟩ := List.mem_iff_getElem.mp h
  apply List.ne_nil_of_mem (a := i)
  rw [matchPos_mem]
  exact ⟨hi, by rw [List.getD_eq_getElem vals vdefault hi, he]⟩

theorem takeRows_props (q : QTable) (ps : List Nat)
    (h : q.table.batches.all (fun b => dtB b.dtype q.table.schema) = true) :
    (q.takeRows ps).rowCount = ps.length ∧
    ∀ p, validLeafB p q.table.schema = true →
      (q.takeRows ps).colVals p =
        ps.map (fun i => (q.colVals p).getD i vdefault) := by
  have hall : ∀ b ∈ q.table.batches, b.dtype = q.table.schema := by
    intro b hb
    exact dtB_eq (by simpa using (List.all_eq_true.mp h) b hb)
  obtain ⟨d1, _, d3⟩ :=
    foldl_arrConcat_props q.table.schema q.table.batches (emptyOf q.table.schema)
      (dtype_emptyOf _) hall
  constructor
  · simp [QTable.takeRows, QTable.rowCount, nrows_arrSelect]
  · intro p hp
    have hcomb : leafVals p (q.table.batches.foldl arrConcat (emptyOf q.table.schema)) =
        q.colVals p := by
      rw [d3 p, leafVals_emptyOf, List.nil_append]
      rfl
    have hv : validLeafB p
        (q.table.batches.foldl arrConcat (emptyOf q.table.schema)).dtype = true := by
      rw [d1]; exact hp
    simp only [QTable.takeRows, QTable.colVals, List.map_cons, List.map_nil,
      List.flatten_cons, List.flatten_nil, List.append_nil]
    rw [leafVals_arrSelect p _ ps hv, hcomb]
    rfl

theorem flatten_map_flatten {α β : Type} (f : α → β) :
    ∀ L : List (List α),
    (L.flatten.map f) = (L.map (fun l => l.map f)).flatten := by
  intro L
  induction L with
  | nil => rfl
  | cons l L ih => simp [ih]

theorem flatten_batches_conform (v0 : QTable) (rest : List QTable)
    (hwf : ∀ v ∈ v0 :: rest, v.wfq = true)
    (hs : ∀ v ∈ rest, v.table.schema = v0.table.schema) :
    ∀ b ∈ ((v0 :: rest).map (fun v => v.table.batches)).flatten,
      b.dtype = v0.table.schema := by
  intro b hb
  rw [List.mem_flatten] at hb
  obtain ⟨l, hl, hbl⟩ := hb
  rw [List.mem_map] at hl
  obtain ⟨v, hv, rfl⟩ := hl
  have hvwf := hwf v hv
  rw [QTable.wfq, Bool.and_eq_true] at hvwf
  have : b.dtype = v.table.schema :=
    dtB_eq (by simpa using List.all_eq_true.mp hvwf.2 b hbl)
  rw [this]
  rcases List.mem_cons.mp hv with rfl | hv'
  · rfl
  · exact hs v hv'

/-- Row count and per-leaf-column values of the combined (pre-compaction)
result table. -/
theorem rawResult_props (v0 : QTable) (rest : List QTable) :
    (QTable.rowCount ⟨v0.cls, v0.table.schema, v0.table.meta,
        ((v0 :: rest).map (fun v => v.table.batches)).flatten⟩ =
      ((v0 :: rest).map QTable.rowCount).sum) ∧
    ∀ p, QTable.colVals ⟨v0.cls, v0.table.schema, v0.table.meta,
        ((v0 :: rest).map (fun v => v.table.batches)).flatten⟩ p =
      ((v0 :: rest).map (fun v => v.colVals p)).flatten := by
  constructor
  · simp only [QTable.rowCount, flatten_map_flatten, List.sum_flatten,
      List.map_map, Function.comp_def]
    rfl
  · intro p
    simp only [QTable.colVals, flatten_map_flatten, List.map_map,
      Function.comp_def]
    induction (v0 :: rest) with
    | nil => rfl
    | cons w ws ih => simp [ih]

theorem attrKeys_scons (f : FieldDecl) (s : SchemaDecl) :
    (SchemaDecl.scons f s).attrKeys = f.keys.map Prod.fst ++ s.attrKeys := by
  simp [SchemaDecl.attrKeys, SchemaDecl.keysT]

theorem hasField_attr_mem : ∀ (s : SchemaDecl) (n : Name) (t : AttrTy),
    s.hasField (.attrF n t) = true → n ∈ s.attrKeys
  | .snil, n, t, h => by simp [SchemaDecl.hasField] at h
  | .scons f s, n, t, h => by
      simp only [SchemaDecl.hasField, Bool.or_eq_true, beq_iff_eq] at h
      rw [attrKeys_scons, List.mem_append]
      rcases h with rfl | h
      · left
        simp [FieldDecl.keys]
      · right
        exact hasField_attr_mem s n t h

theorem hasSub_key_mem : ∀ (s : SchemaDecl) (n : Name) (sub : SchemaDecl),
    s.hasSub n sub = true → ∀ k ∈ sub.attrKeys, keyUnder n k ∈ s.attrKeys
  | .snil, n, sub, h => by simp [SchemaDecl.hasSub] at h
  | .scons f s, n, sub, h => by
      intro k hk
      simp only [SchemaDecl.hasSub, Bool.or_eq_true, beq_iff_eq] at h
      rw [attrKeys_scons, List.mem_append]
      rcases h with rfl | h
      · left
        simp only [SchemaDecl.attrKeys, List.mem_map] at hk
        obtain ⟨kt, hkt, rfl⟩ := hk
        simp only [FieldDecl.keys, List.map_map, List.mem_map]
        exact ⟨kt, hkt, rfl⟩
      · right
        exact hasSub_key_mem s n sub h k hk

/-- C4: for every well-formed Field Descriptor set, schema compilation
assigns each Attribute, at every depth, the metadata key obtained by
joining the chain of enclosing SubTable field names with the attribute's
own name using `.` (an outer-level attribute's key is its bare name),
and the resulting dotted-path keys are pairwise distinct across the
whole compiled schema — including when sub-tables share attribute names
or an outer attribute shadows a nested one. -/
theorem claim_C4 (s : SchemaDecl) (h : s.wfS = true) :
    s.attrKeys.Nodup ∧
    (∀ n t, s.hasField (.attrF n t) = true → n ∈ s.attrKeys) ∧
    (∀ n sub, s.hasSub n sub = true →
      ∀ k ∈ sub.attrKeys, keyUnder n k ∈ s.attrKeys) :=
  ⟨by simpa [SchemaDecl.attrKeys] using keys_nodup_s s h,
   fun n t ht => hasField_attr_mem s n t ht,
   fun n sub hs => hasSub_key_mem s n sub hs⟩

/-- Witness for C4 at the shadowing schema of
test_nested_table_shadowing (outer `id` beside `inner.id`). -/
theorem claim_C4_witness :
    shadOuter.attrKeys.Nodup ∧
    (∀ n t, shadOuter.hasField (.attrF n t) = true → n ∈ shadOuter.attrKeys) ∧
    (∀ n sub, shadOuter.hasSub n sub = true →
      ∀ k ∈ sub.attrKeys, keyUnder n k ∈ shadOuter.attrKeys) :=
  claim_C4 shadOuter (by decide)

/-- C5: for every well-formed schema of nesting depth at least two and
every legal attribute value assignment, decoding the metadata produced
by encoding the assignment recovers it exactly, and the assignment of
every nested sub-table extracted by metadata-prefix slicing is likewise
recovered exactly. -/
theorem claim_C5 (s : SchemaDecl) (vals : List (Name × AVal))
    (_hd : 2 ≤ s.depthS) (hw : s.wfS = true) (hl : legalA s vals = true) :
    decodeA s (encodeA vals) = .ok vals ∧
    ∀ n sub, s.hasSub n sub = true →
      decodeA sub (stripMM n (encodeA vals)) = .ok (stripAV n vals) :=
  ⟨decodeA_encodeA s vals hw hl,
   fun n sub hsub => decodeA_strip s vals n sub hw hl hsub⟩

/-- Witness for C5 at the depth-2 `Outer/Middle/Inner` schema of
test_nested_attribute_metadata with `id1="a", id2="b", id3="c"`. -/
theorem claim_C5_witness :
    decodeA outerS (encodeA outerVals) = .ok outerVals ∧
    ∀ n sub, outerS.hasSub n sub = true →
      decodeA sub (stripMM n (encodeA outerVals)) = .ok (stripAV n outerVals) :=
  claim_C5 outerS outerVals (by decide) (by decide) (by decide)

/-- C1: concatenating same-schema tables yields a table whose row count
is the sum of the inputs' row counts and whose value sequence in every
physical column — leaf columns nested inside struct columns included —
is the ordered concatenation of the inputs' value sequences, in input
order (with or without the compaction step). -/
theorem claim_C1 (v0 : QTable) (rest : List QTable) (d : Bool)
    (hb : v0.table.batches ≠ [])
    (hwf : ∀ v ∈ v0 :: rest, v.wfq = true)
    (hs : ∀ v ∈ rest, v.table.schema = v0.table.schema) :
    ∃ r, concatenate (v0 :: rest) d = .ok r ∧
      r.rowCount = ((v0 :: rest).map QTable.rowCount).sum ∧
      ∀ p, r.colVals p = ((v0 :: rest).map (fun v => v.colVals p)).flatten := by
  have hok := concatenate_ok v0 rest d hb hwf hs
  obtain ⟨r1, r2⟩ := rawResult_props v0 rest
  cases d with
  | false => exact ⟨_, hok, r1, r2⟩
  | true =>
      refine ⟨_, hok, ?_, ?_⟩
      all_goals
        have hconf := flatten_batches_conform v0 rest hwf hs
        have hall : (QTable.mk v0.cls ⟨v0.table.schema, v0.table.meta,
            ((v0 :: rest).map (fun v => v.table.batches)).flatten⟩).table.batches.all
            (fun b => dtB b.dtype (QTable.mk v0.cls ⟨v0.table.schema, v0.table.meta,
              ((v0 :: rest).map (fun v => v.table.batches)).flatten⟩).table.schema) = true := by
          rw [List.all_eq_true]
          intro b hb'
          exact dtB_iff.mpr (hconf b hb')
        obtain ⟨_, _, _, _, d5, d6⟩ := defragment_props _ hall
      · rw [cond_true, d5, r1]
      · intro p
        rw [cond_true, d6 p, r2 p]

/-- Witness for C1: `concatenate([pair1, pair2])` of test_concatenate. -/
theorem claim_C1_witness :
    ∃ r, concatenate [pairT1, pairT2] true = .ok r ∧
      r.rowCount = ([pairT1, pairT2].map QTable.rowCount).sum ∧
      ∀ p, r.colVals p = ([pairT1, pairT2].map (fun v => v.colVals p)).flatten :=
  claim_C1 pairT1 [pairT2] true (by decide) (by decide) (by decide)

/-- C3: `defragment` returns a new table in which every physical column
— recursively, every leaf column inside struct columns included —
consists of exactly one contiguous chunk, and whose row values,
metadata, schema (and class) equal the input's. -/
theorem claim_C3 (q : QTable) (h : q.wfq = true) :
    (defragment q).chunkCount = 1 ∧
    (defragment q).rowCount = q.rowCount ∧
    (∀ p, (defragment q).colVals p = q.colVals p) ∧
    (defragment q).table.meta = q.table.meta ∧
    (defragment q).table.schema = q.table.schema ∧
    (defragment q).cls = q.cls := by
  rw [QTable.wfq, Bool.and_eq_true] at h
  obtain ⟨d1, d2, d3, d4, d5, d6⟩ := defragment_props q h.2
  exact ⟨d4, d5, d6, d3, d2, d1⟩

/-- Witness for C3 on a two-chunk-per-column `Pair` table (the
fragmented table of test_defragment). -/
theorem claim_C3_witness :
    (defragment pairFrag).chunkCount = 1 ∧
    (defragment pairFrag).rowCount = pairFrag.rowCount ∧
    (∀ p, (defragment pairFrag).colVals p = pairFrag.colVals p) ∧
    (defragment pairFrag).table.meta = pairFrag.table.meta ∧
    (defragment pairFrag).table.schema = pairFrag.table.schema ∧
    (defragment pairFrag).cls = pairFrag.cls :=
  claim_C3 pairFrag (by decide)

/-- C8: on a single input, `concatenate` with compaction enabled (the
default) returns exactly `defragment` of that input. -/
theorem claim_C8 (t : QTable) (hb : t.table.batches ≠ []) (hw : t.wfq = true) :
    concatenate [t] true = .ok (defragment t) := by
  have hok := concatenate_ok t [] true hb
    (by intro v hv; rcases List.mem_cons.mp hv with rfl | hv'
        · exact hw
        · simp at hv')
    (by intro v hv; simp at hv)
  simpa using hok

/-- Witness for C8 on the fragmented `Pair` table. -/
theorem claim_C8_witness :
    concatenate [pairFrag] true = .ok (defragment pairFrag) :=
  claim_C8 pairFrag (by decide) (by decide)

/-- C7: on success, the attribute metadata of the concatenation result
is exactly the first input's metadata, and the result does not depend on
the metadata carried by the remaining inputs at all (no merging, no
cross-input equality validation). -/
theorem claim_C7 (v0 : QTable) (rest : List QTable) (d : Bool)
    (hb : v0.table.batches ≠ [])
    (hwf : ∀ v ∈ v0 :: rest, v.wfq = true)
    (hs : ∀ v ∈ rest, v.table.schema = v0.table.schema) :
    (∃ r, concatenate (v0 :: rest) d = .ok r ∧
      r.table.meta = v0.table.meta) ∧
    ∀ f : QTable → MetaMap,
      concatenate
        (v0 :: rest.map (fun v =>
          (⟨v.cls, ⟨v.table.schema, f v, v.table.batches⟩⟩ : QTable))) d =
      concatenate (v0 :: rest) d := by
  constructor
  · exact ⟨_, concatenate_ok v0 rest d hb hwf hs, by cases d <;> rfl⟩
  · intro f
    have hwf' : ∀ v ∈ v0 :: rest.map (fun v =>
        (⟨v.cls, ⟨v.table.schema, f v, v.table.batches⟩⟩ : QTable)),
        v.wfq = true := by
      intro v hv
      rcases List.mem_cons.mp hv with rfl | hv'
      · exact hwf v (by simp)
      · rw [List.mem_map] at hv'
        obtain ⟨w, hw, rfl⟩ := hv'
        exact hwf w (by simp [hw])
    have hs' : ∀ v ∈ rest.map (fun v =>
        (⟨v.cls, ⟨v.table.schema, f v, v.table.batches⟩⟩ : QTable)),
        v.table.schema = v0.table.schema := by
      intro v hv
      rw [List.mem_map] at hv
      obtain ⟨w, hw, rfl⟩ := hv
      exact hs w hw
    rw [concatenate_ok v0 _ d hb hwf' hs', concatenate_ok v0 rest d hb hwf hs]
    simp [List.map_map, Function.comp_def]

/-- Witness for C7: concatenating with a second input that carries
different metadata; the result keeps the first input's metadata and is
unchanged if the second input's metadata is replaced. -/
theorem claim_C7_witness :
    (∃ r, concatenate [pairT1, pairT2m] true = .ok r ∧
      r.table.meta = pairT1.table.meta) ∧
    concatenate [pairT1,
      (⟨pairT2m.cls, ⟨pairT2m.table.schema, [], pairT2m.table.batches⟩⟩ : QTable)]
      true = concatenate [pairT1, pairT2m] true := by
  have h := claim_C7 pairT1 [pairT2m] true (by decide) (by decide) (by decide)
  exact ⟨h.1, by simpa using h.2 (fun _ => [])⟩

/-- C9: `defragment` never mutates its input: run against any table of a
store of live instances, every pre-existing instance — the input
included — is left exactly as it was (chunk structure, row values and
metadata), the compacted result being a fresh appended instance. -/
theorem claim_C9 (store : List QTable) (i : Nat) :
    (defragmentAt store i).take store.length = store ∧
    (defragmentAt store i).getD store.length default =
      defragment (store.getD i default) ∧
    ∀ j, j < store.length →
      (defragmentAt store i).getD j default = store.getD j default := by
  refine ⟨?_, ?_, ?_⟩
  · rw [defragmentAt]
    exact List.take_left store [defragment (store.getD i default)]
  · rw [defragmentAt, List.getD_append_right _ _ _ _ (le_refl _)]
    simp
  · intro j hj
    rw [defragmentAt, List.getD_append _ _ _ _ hj]

/-- Witness for C9 on a store of two `Pair` tables, defragmenting the
fragmented one. -/
theorem claim_C9_witness :
    (defragmentAt [pairFrag, pairT1] 0).take 2 = [pairFrag, pairT1] ∧
    (defragmentAt [pairFrag, pairT1] 0).getD 2 default =
      defragment (([pairFrag, pairT1] : List QTable).getD 0 default) ∧
    ∀ j, j < 2 →
      (defragmentAt [pairFrag, pairT1] 0).getD j default =
        ([pairFrag, pairT1] : List QTable).getD j default :=
  claim_C9 [pairFrag, pairT1] 0

/-- C10: the concatenation result is constructed as an instance of the
first input's class only; replacing the classes of the remaining inputs
changes nothing about the call's outcome. -/
theorem claim_C10 (v0 : QTable) (rest : List QTable) (d : Bool) :
    (∀ r, concatenate (v0 :: rest) d = .ok r → r.cls = v0.cls) ∧
    (∀ c : Cls,
      concatenate (v0 :: rest.map (fun v => (⟨c, v.table⟩ : QTable))) d =
        concatenate (v0 :: rest) d) := by
  constructor
  · intro r h
    unfold concatenate at h
    cases hpb : paFromBatches (gatherBatches (v0 :: rest)) with
    | error e => rw [hpb] at h; simp [bind, Except.bind] at h
    | ok table =>
        rw [hpb] at h
        simp only [bind, Except.bind] at h
        unfold clsFromTable at h
        cases hc : dtB table.schema v0.cls.schema with
        | false => rw [hc] at h; simp at h
        | true =>
            rw [hc] at h
            simp only [cond_true, pure, Except.pure, Except.ok.injEq] at h
            rw [← h]
            cases d <;> rfl
  · intro c
    have hgb : gatherBatches (v0 :: rest.map (fun v => (⟨c, v.table⟩ : QTable))) =
        gatherBatches (v0 :: rest) := by
      rw [gatherBatches_eq, gatherBatches_eq]
      simp [List.map_map, Function.comp_def]
    unfold concatenate
    rw [hgb]

/-- Witness for C10: the concrete `concatenate([pair1, pair2])` result
is a `Pair`-class table, and retagging the second input's class leaves
the call's result unchanged. -/
theorem claim_C10_witness :
    concatPairRes.cls = pairT1.cls ∧
    concatenate [pairT1, (⟨⟨9, soloStrSchema⟩, pairT2.table⟩ : QTable)] true =
      concatenate [pairT1, pairT2] true := by
  have h := claim_C10 pairT1 [pairT2] true
  exact ⟨h.1 concatPairRes rfl, by simpa using h.2 ⟨9, soloStrSchema⟩⟩

/-- C2 counterexample: two inputs whose compiled schemas differ
structurally make `concatenate` fail with the arrow library's
invalid-schema error, which is not quivr's `ValidationError` — refuting
the claim that schema-mismatched inputs fail with `ValidationError`. -/
theorem claim_C2_counterexample :
    concatenate [pairT1, soloStrT] true = .error .arrowInvalid ∧
    Err.arrowInvalid ≠ Err.validationError :=
  ⟨rfl, by decide⟩

/-- C2 (amended): `concatenate` on an empty input sequence fails with
the arrow library's empty-batch-list error, and fails with the arrow
library's invalid-schema error (never quivr's `ValidationError`) when
some gathered batch's schema differs structurally from the first's; in
both cases no table is returned. Metadata-only schema differences are
not detected. -/
theorem claim_C2_amended (values : List QTable) (d : Bool) :
    (values = [] → concatenate values d = .error .arrowEmptyBatches) ∧
    (∀ b0 bs, gatherBatches values = b0 :: bs →
      (∃ b ∈ bs, dtB b.data.dtype b0.data.dtype = false) →
      concatenate values d = .error .arrowInvalid) := by
  constructor
  · rintro rfl
    rfl
  · intro b0 bs hg hex
    unfold concatenate
    rw [hg]
    have hall : (bs.all fun r => dtB r.data.dtype b0.data.dtype) = false := by
      rw [List.all_eq_false]
      obtain ⟨b, hb, hf⟩ := hex
      exact ⟨b, hb, by simp [hf]⟩
    simp [paFromBatches, hall, bind, Except.bind]

/-- Witness for the amended C2: the empty call and a concrete
mismatched-schema call both fail with the arrow errors. -/
theorem claim_C2_amended_witness :
    concatenate ([] : List QTable) true = .error .arrowEmptyBatches ∧
    concatenate [pairT1, soloStrT] true = .error .arrowInvalid := by
  constructor
  · exact (claim_C2_amended [] true).1 rfl
  · exact (claim_C2_amended [pairT1, soloStrT] true).2
      ⟨[], pairBatch [1, 2, 3] [4, 5, 6]⟩ [⟨[], strBatch⟩] rfl
      ⟨⟨[], strBatch⟩, by simp, by decide⟩

/-- C6: looking up a value that occurs in the indexed column returns a
table holding exactly the matching rows, in their original (ascending)
row order, across every physical leaf column; looking up a value never
present returns the explicit no-match result `none`, distinct from any
table. -/
theorem claim_C6 (t : QTable) (c : Name) (v : List Char)
    (hw : t.wfq = true) :
    (Val.vstr v ∉ t.colVals [c] → StringIndex.lookup ⟨t, c⟩ v = none) ∧
    (Val.vstr v ∈ t.colVals [c] →
      ∃ t', StringIndex.lookup ⟨t, c⟩ v = some t' ∧
        t'.rowCount = (matchPos (t.colVals [c]) (Val.vstr v)).length ∧
        (∀ i, i ∈ matchPos (t.colVals [c]) (Val.vstr v) ↔
          i < (t.colVals [c]).length ∧
          (t.colVals [c]).getD i vdefault = Val.vstr v) ∧
        (matchPos (t.colVals [c]) (Val.vstr v)).Sorted (· < ·) ∧
        ∀ p, validLeafB p t.table.schema = true →
          t'.colVals p = (matchPos (t.colVals [c]) (Val.vstr v)).map
            (fun i => (t.colVals p).getD i vdefault)) := by
  rw [QTable.wfq, Bool.and_eq_true] at hw
  constructor
  · intro hnv
    have hmp : matchPos (t.colVals [c]) (Val.vstr v) = [] := matchPos_eq_nil hnv
    simp [StringIndex.lookup, hmp]
  · intro hv
    have hne := matchPos_ne_nil hv
    have hie : (matchPos (t.colVals [c]) (Val.vstr v)).isEmpty = false := by
      cases hmp : matchPos (t.colVals [c]) (Val.vstr v) with
      | nil => exact absurd hmp hne
      | cons a l => rfl
    obtain ⟨t1, t2⟩ :=
      takeRows_props t (matchPos (t.colVals [c]) (Val.vstr v)) hw.2
    refine ⟨t.takeRows (matchPos (t.colVals [c]) (Val.vstr v)), ?_, t1,
      fun i => matchPos_mem _ _ i, ?_, t2⟩
    · simp [StringIndex.lookup, hie]
    · exact List.Pairwise.sublist (List.filter_sublist _)
        (List.pairwise_lt_range _)

/-- Witness for C6 on the `test_indexing_duplicate` table: `"b"` never
occurs in column `name` and yields the no-match result; `"a"` occurs
and yields the matching-row table. -/
theorem claim_C6_witness :
    (StringIndex.lookup ⟨twsT, ['n', 'a', 'm', 'e']⟩ ['b'] = none) ∧
    (∃ t', StringIndex.lookup ⟨twsT, ['n', 'a', 'm', 'e']⟩ ['a'] = some t' ∧
      t'.rowCount =
        (matchPos (twsT.colVals [['n', 'a', 'm', 'e']]) (Val.vstr ['a'])).length ∧
      (∀ i, i ∈ matchPos (twsT.colVals [['n', 'a', 'm', 'e']]) (Val.vstr ['a']) ↔
        i < (twsT.colVals [['n', 'a', 'm', 'e']]).length ∧
        (twsT.colVals [['n', 'a', 'm', 'e']]).getD i vdefault = Val.vstr ['a']) ∧
      (matchPos (twsT.colVals [['n', 'a', 'm', 'e']]) (Val.vstr ['a'])).Sorted
        (· < ·) ∧
      ∀ p, validLeafB p twsT.table.schema = true →
        t'.colVals p =
          (matchPos (twsT.colVals [['n', 'a', 'm', 'e']]) (Val.vstr ['a'])).map
            (fun i => (twsT.colVals p).getD i vdefault)) := by
  constructor
  · exact (claim_C6 twsT ['n', 'a', 'm', 'e'] ['b'] (by decide)).1 (by decide)
  · exact (claim_C6 twsT ['n', 'a', 'm', 'e'] ['a'] (by decide)).2 (by decide)
